import Mathlib

/-!
Verification of the nginx configuration utilities of this repository
(`ops/scripts/nginx_conf_utils.py`).

The module under verification is a line-oriented text scanner: it strips
trailing `#` comments from each line, locates the `http { ... }` block of an
nginx configuration by brace-depth counting, and checks whether that block
contains an `include <snippets-dir>/*.conf;` directive.

The shallow embedding below models one line of text as a `List Char` (the
newline, when present, is part of the line, as produced by Python's
`splitlines(keepends=True)`), and a file as a `List` of such lines.  Reading
the file from disk is I/O and is modelled by passing the line list directly;
the existence check of the CLI adapter is modelled by a boolean parameter.
Whitespace is modelled as the ASCII whitespace characters, the common core of
Python's `str.strip()` and of the `\s` class of its regular expressions.
Python's regular-expression matches used by the source are compiled here to
explicit, equivalent scans (each is justified in the comment at the
corresponding definition).
-/

/-- One line of text, as a list of characters. -/
abbrev Str := List Char

/-- The character `{`. -/
def lbrace : Char := Char.ofNat 123

/-- The character `}`. -/
def rbrace : Char := Char.ofNat 125

/-- The comment character `#`. -/
def hashChar : Char := Char.ofNat 35

/-- The character `;`. -/
def semiChar : Char := Char.ofNat 59

/-- The double-quote character. -/
def dquote : Char := Char.ofNat 34

/-- The single-quote character. -/
def squote : Char := Char.ofNat 39

/-- The character `/`. -/
def slashChar : Char := Char.ofNat 47

/-- ASCII whitespace: the characters stripped by Python's `str.strip()` and
matched by `\s` (restricted to ASCII): space, tab, newline, carriage return,
vertical tab and form feed. -/
def isPySpace (c : Char) : Bool :=
  c = Char.ofNat 32 || c = Char.ofNat 9 || c = Char.ofNat 10 ||
  c = Char.ofNat 13 || c = Char.ofNat 11 || c = Char.ofNat 12

/-- Drop leading whitespace (Python `lstrip()`). -/
def lstripWs (s : Str) : Str := s.dropWhile isPySpace

/-- Drop trailing whitespace. -/
def rstripWs (s : Str) : Str := (s.reverse.dropWhile isPySpace).reverse

/-- Python `str.strip()`: drop leading and trailing whitespace. -/
def stripWs (s : Str) : Str := rstripWs (lstripWs s)

/-- Python `rstrip(chr(10))`: drop all trailing newline characters. -/
def rstripNl (s : Str) : Str := (s.reverse.dropWhile (fun c => c = Char.ofNat 10)).reverse

/-- Python `rstrip(chr(47))`: drop all trailing `/` characters. -/
def rstripSlash (s : Str) : Str := (s.reverse.dropWhile (fun c => c = slashChar)).reverse

/-- Python `str.startswith`, by direct recursion on both lists. -/
def leadsWith : Str → Str → Bool
  | [], _ => true
  | _ :: _, [] => false
  | a :: as, b :: bs => a = b && leadsWith as bs

/-- Python `str.removeprefix(p)`: drop `p` from the front when it is there. -/
def removeLeading (p s : Str) : Str := if leadsWith p s then s.drop p.length else s

/-- Source `_strip_comments` (nginx_conf_utils.py line 29): the part of the
line before its first `#`, i.e. Python `line.split("#", 1)[0]`. -/
def _strip_comments (line : Str) : Str := line.takeWhile (fun c => c ≠ hashChar)

/-- Source `_count_char` (line 33): `text.count(char)` for a single character. -/
def _count_char (text : Str) (char : Char) : Nat := text.countP (fun c => c = char)

/-- Source `_unquote` (line 37): strip whitespace; when the result starts and
ends with the same (single or double) quote character, drop that first and
last character and strip the interior. -/
def _unquote (value : Str) : Str :=
  let v := stripWs value
  if (v.head? = some dquote ∧ v.getLast? = some dquote) ∨
     (v.head? = some squote ∧ v.getLast? = some squote) then
    stripWs ((v.drop 1).dropLast)
  else v

/-- The word `include` of the directive syntax. -/
def includeWord : Str := "include".toList

/-- A line after comment stripping and `rstrip` of trailing newlines, the
`cleaned` value of source `_parse_include_path` (line 52). -/
def cleanedLine (line : Str) : Str := rstripNl (_strip_comments line)

/-- The characters before the first `;` of a line. -/
def beforeSemi (s : Str) : Str := s.takeWhile (fun c => c ≠ semiChar)

/-- The characters after the first `;` of a line (empty when there is none). -/
def afterSemi (s : Str) : Str := (s.dropWhile (fun c => c ≠ semiChar)).drop 1

/-- The part of the include match before the first `;`, already stripped of
leading whitespace: it must read `include`, then at least one whitespace
character, then at least one further character (which together form the `\s+`
and the nonempty group of the pattern). -/
def includeDirectiveTail (b : Str) : Option Str :=
  if leadsWith includeWord b then
    match b.drop includeWord.length with
    | [] => none
    | c :: tl => if isPySpace c && !tl.isEmpty then some (_unquote (c :: tl)) else none
  else none

/-- Source `_parse_include_path` (line 44): match the anchored pattern
`include <argument>;` against the cleaned line and return the unquoted
argument, else `none`.

The source matches the Python regular expression
`^\s*include\s+([^;]+)\s*;\s*$` with `re.match`.  Because neither `\s` nor
`[^;]` matches `;`, the `;` of a successful match is the first `;` of the
string, everything after it must be whitespace, and before it the string must
read: optional whitespace, the literal `include`, then at least one
whitespace character followed by at least one further (non-`;`) character,
which form `\s+` and the group.  The group is that tail of the `include`
word; since `_unquote` strips outer whitespace first, splitting the tail
between `\s+` and the group does not change the returned value. -/
def _parse_include_path (line : Str) : Option Str :=
  if (cleanedLine line).any (fun c => c = semiChar) &&
      (afterSemi (cleanedLine line)).all isPySpace then
    includeDirectiveTail (lstripWs (beforeSemi (cleanedLine line)))
  else none

/-- The word `http` of the block syntax. -/
def httpWord : Str := "http".toList

/-- Does a comment-stripped line match `re.match` of `^\s*http\s*` followed by
a left brace (source line 81): after optional leading whitespace, the literal
`http`, optional whitespace, then `{`.  `re.match` only anchors at the start,
so the rest of the line is unconstrained.  The maximal-munch scans below are
equivalent to the backtracking match because `h` and `{` are not whitespace. -/
def matchesHttpOpen (line : Str) : Bool :=
  let t := lstripWs line
  leadsWith httpWord t && (lstripWs (t.drop httpWord.length)).head? = some lbrace

/-- Does a comment-stripped line match `re.match(r"^\s*http\s*$", line)`
(source line 84): optional whitespace, the literal `http`, then only
whitespace up to the end of the string.  Without `re.MULTILINE`, `$` matches
at the end of the string or just before a trailing newline; since `\s*` also
absorbs newlines, the match succeeds exactly when the tail is all
whitespace. -/
def matchesHttpAlone (line : Str) : Bool :=
  let t := lstripWs line
  leadsWith httpWord t && (t.drop httpWord.length).all isPySpace

/-- Does a comment-stripped line match `re.match` of `^\s*` followed by a left
brace (source line 85): optional leading whitespace then `{`. -/
def matchesBraceOpen (line : Str) : Bool :=
  (lstripWs line).head? = some lbrace

/-- Source `HttpBlock` (line 59): the inclusive span of the located block. -/
structure HttpBlock where
  start_line_index : Nat
  end_line_index : Nat
deriving DecidableEq, Repr

/-- The first scanning loop of source `find_http_block` (lines 79 to 87),
walking the suffix of the line list that starts at line `index`: stop at the
first line matching the one-line form `http {` (the opening line is that
line), or at the first line matching `http` alone whose successor line starts
with `{` (the opening line is that successor, source line 86); otherwise keep
scanning.  Yields the value of `http_open_index`. -/
def findOpenAux : List Str → Nat → Option Nat
  | [], _ => none
  | raw :: rest, index =>
    let line := _strip_comments raw
    if matchesHttpOpen line then some index
    else
      match rest with
      | [] => none
      | nxt :: _ =>
        if matchesHttpAlone line && matchesBraceOpen (_strip_comments nxt) then
          some (index + 1)
        else findOpenAux rest (index + 1)

/-- The per-line brace-depth contribution of source lines 95 and 96: the count
of `{` minus the count of `}` in a comment-stripped line. -/
def braceDelta (line : Str) : Int :=
  (_count_char line lbrace : Int) - (_count_char line rbrace : Int)

/-- The second loop of source `find_http_block` (lines 92 to 100), walking the
suffix that starts at line `index` with accumulated depth `depth`: add the
line's brace delta and stop at the first line, strictly after the opening
line, where the accumulated depth is exactly 0. -/
def findEndAux : List Str → Nat → Nat → Int → Option Nat
  | [], _, _, _ => none
  | raw :: rest, openIdx, index, depth =>
    let d := depth + braceDelta (_strip_comments raw)
    if d = 0 ∧ openIdx < index then some index
    else findEndAux rest openIdx (index + 1) d

/-- Source `find_http_block` (line 65): locate the `http { ... }` block,
returning the inclusive line span, or `none` when no opening line exists or
the depth never returns to 0 before the input ends. -/
def find_http_block (lines : List Str) : Option HttpBlock :=
  match findOpenAux lines 0 with
  | none => none
  | some o =>
    match findEndAux (lines.drop o) o o 0 with
    | none => none
    | some e => some ⟨o, e⟩

/-- The glob suffix appended to the snippets directory (source lines 116
and 117). -/
def confGlob : Str := "/*.conf".toList

/-- The fixed nginx root directory prefix of source line 117. -/
def etcNginxDir : Str := "/etc/nginx/".toList

/-- The two acceptance targets of source lines 116 to 118: the snippets
directory with trailing slashes removed plus `/*.conf`, and the same with a
leading `/etc/nginx/` removed from the slash-stripped directory when present.
The source stores them in a set; membership is the only operation used, so a
two-element list is an equivalent model. -/
def includeTargets (snippets_dir : Str) : List Str :=
  [rstripSlash snippets_dir ++ confGlob,
   removeLeading etcNginxDir (rstripSlash snippets_dir) ++ confGlob]

/-- The body of the scanning loop of source lines 120 to 123 for one line:
`include_path = _parse_include_path(raw)` followed by
`if include_path and include_path in targets`.  An empty extracted path is
falsy in Python and never counts as a hit. -/
def includeLineHit (targets : List Str) (raw : Str) : Bool :=
  match _parse_include_path raw with
  | some p => !p.isEmpty && decide (p ∈ targets)
  | none => false

/-- Source `nginx_conf_includes_snippets` (line 103), with the file contents
already split into newline-preserving lines (source line 111 performs the
I/O): locate the block and scan `lines[block.start : block.end + 1]` for an
include directive whose path is one of the two targets. -/
def nginx_conf_includes_snippets (lines : List Str) (snippets_dir : Str) : Bool :=
  match find_http_block lines with
  | none => false
  | some block =>
    ((lines.drop block.start_line_index).take
        (block.end_line_index + 1 - block.start_line_index)).any
      (includeLineHit (includeTargets snippets_dir))

/-- The observable outcome of the CLI adapter: its exit status and the lines
it writes to standard output. -/
structure CmdResult where
  exitCode : Nat
  stdoutLines : List Str
deriving DecidableEq, Repr

/-- Source `_cmd_includes_snippets` (line 128).  The filesystem existence
check of line 130 is I/O and is modelled by the boolean `confExists`; the
error message of line 131 goes to standard error, which is not modelled.
When the file is missing the command exits 2 without computing a result;
otherwise it exits 0 or 1 according to the boolean outcome, printing `yes` or
`no` first when the verbose flag is set. -/
def _cmd_includes_snippets (confExists : Bool) (lines : List Str)
    (snippets_dir : Str) (verbose : Bool) : CmdResult :=
  if confExists = false then ⟨2, []⟩
  else
    let ok := nginx_conf_includes_snippets lines snippets_dir
    ⟨if ok then 0 else 1,
     if verbose then [if ok then "yes".toList else "no".toList] else []⟩

/-- The brace depth accumulated over `n` consecutive comment-stripped lines
starting at line `s`: the count of `{` minus the count of `}` summed over
lines `s` to `s + n - 1`. -/
def segDepth (lines : List Str) (s : Nat) : Nat → Int
  | 0 => 0
  | n + 1 => segDepth lines s n + braceDelta (_strip_comments (lines.getD (s + n) []))

/-- The scanning loop of `find_http_block` stops at line `k` exactly when this
holds: either line `k` matches the one-line form, or it matches `http` alone
and the next line exists and starts with `{`. -/
def triggersAt (lines : List Str) (k : Nat) : Prop :=
  k < lines.length ∧
  (matchesHttpOpen (_strip_comments (lines.getD k [])) = true ∨
   (matchesHttpAlone (_strip_comments (lines.getD k [])) = true ∧ k + 1 < lines.length ∧
    matchesBraceOpen (_strip_comments (lines.getD (k + 1) [])) = true))

/-- The opening index recorded when the scan stops at line `k`: `k` itself for
the one-line form, otherwise the following line (the one holding `{`). -/
def triggerResult (lines : List Str) (k : Nat) : Nat :=
  if matchesHttpOpen (_strip_comments (lines.getD k [])) then k else k + 1

/-- Line `o` is an opening line of an `http` block: either it matches the
one-line form `http {`, or it starts with `{` and the line before it matches
`http` alone (the two-line form, whose opening line is the brace line). -/
def isOpeningAt (lines : List Str) (o : Nat) : Prop :=
  o < lines.length ∧
  (matchesHttpOpen (_strip_comments (lines.getD o [])) = true ∨
   (1 ≤ o ∧ matchesHttpAlone (_strip_comments (lines.getD (o - 1) [])) = true ∧
    matchesBraceOpen (_strip_comments (lines.getD o [])) = true))

/-- Line `s` is the topmost opening line of the file. -/
def leastOpeningAt (lines : List Str) (s : Nat) : Prop :=
  isOpeningAt lines s ∧ ∀ o, o < s → ¬ isOpeningAt lines o

/-- The data-model invariant exactly as the specification states it for a
located block: start at most end, accumulated depth exactly 0 at the end
line, and accumulated depth nonzero with strictly more opens than closes
(that is, strictly positive) at every line from the start line (inclusive,
the start line counting its own braces) up to the line before the end. -/
def claimedBlockInvariant (lines : List Str) (b : HttpBlock) : Prop :=
  b.start_line_index ≤ b.end_line_index ∧
  segDepth lines b.start_line_index (b.end_line_index + 1 - b.start_line_index) = 0 ∧
  ∀ i, b.start_line_index ≤ i → i < b.end_line_index →
    0 < segDepth lines b.start_line_index (i + 1 - b.start_line_index)

/-- Line `i` of the file parses as an include directive whose path is one of
the two acceptance targets. -/
def lineMatchesTargets (lines : List Str) (sd : Str) (i : Nat) : Prop :=
  ∃ p, _parse_include_path (lines.getD i []) = some p ∧ p ∈ includeTargets sd

/-- Spec-side restatement of trailing-slash removal: while the last character
is `/`, drop it. -/
def specStripTrailingSlash (s : Str) : Str :=
  if _h : s.getLast? = some slashChar then specStripTrailingSlash s.dropLast else s
termination_by s.length
decreasing_by
  have hne : s ≠ [] := by
    intro he
    rw [he] at _h
    simp at _h
  have := List.length_pos.mpr hne
  simp [List.length_dropLast]
  omega

/-- Spec-side restatement of prefix removal: when the first characters of `s`
are exactly `/etc/nginx/`, the rest of `s`; otherwise `s` itself. -/
def specRemoveEtcNginx (s : Str) : Str :=
  if s.take etcNginxDir.length = etcNginxDir then s.drop etcNginxDir.length else s

/-- Bounds-checked line access: the partial operation `lines[i]` made
explicitly fallible. -/
def getLineChecked (lines : List Str) (i : Nat) : Except Unit Str :=
  match lines[i]? with
  | some l => Except.ok l
  | none => Except.error ()

/-- The first loop of `find_http_block` transcribed with absolute indices and
every line access fallible, mirroring source lines 79 to 87 (including the
guarded lookahead `lines[index + 1]` of line 85). -/
def findOpenChecked (lines : List Str) (index : Nat) : Except Unit (Option Nat) :=
  if _h : index < lines.length then
    match getLineChecked lines index with
    | Except.error e => Except.error e
    | Except.ok raw =>
      let line := _strip_comments raw
      if matchesHttpOpen line then Except.ok (some index)
      else if matchesHttpAlone line = true ∧ index + 1 < lines.length then
        match getLineChecked lines (index + 1) with
        | Except.error e => Except.error e
        | Except.ok nxt =>
          if matchesBraceOpen (_strip_comments nxt) then Except.ok (some (index + 1))
          else findOpenChecked lines (index + 1)
      else findOpenChecked lines (index + 1)
  else Except.ok none
termination_by lines.length - index
decreasing_by
  all_goals omega

/-- The second loop of `find_http_block` transcribed with absolute indices and
fallible line access, mirroring source lines 92 to 100. -/
def findEndChecked (lines : List Str) (openIdx index : Nat) (depth : Int) :
    Except Unit (Option Nat) :=
  if _h : index < lines.length then
    match getLineChecked lines index with
    | Except.error e => Except.error e
    | Except.ok raw =>
      let d := depth + braceDelta (_strip_comments raw)
      if d = 0 ∧ openIdx < index then Except.ok (some index)
      else findEndChecked lines openIdx (index + 1) d
  else Except.ok none
termination_by lines.length - index
decreasing_by
  all_goals omega

/-- Source `find_http_block` with fallible line access. -/
def find_http_block_checked (lines : List Str) : Except Unit (Option HttpBlock) :=
  match findOpenChecked lines 0 with
  | Except.error e => Except.error e
  | Except.ok none => Except.ok none
  | Except.ok (some o) =>
    match findEndChecked lines o o 0 with
    | Except.error e => Except.error e
    | Except.ok none => Except.ok none
    | Except.ok (some e) => Except.ok (some ⟨o, e⟩)

/-- Source `nginx_conf_includes_snippets` with fallible line access in the block
locator (the slice of source line 120 clamps out-of-range bounds in Python
and is total as written). -/
def nginx_conf_includes_snippets_checked (lines : List Str) (snippets_dir : Str) :
    Except Unit Bool :=
  match find_http_block_checked lines with
  | Except.error e => Except.error e
  | Except.ok none => Except.ok false
  | Except.ok (some block) =>
    Except.ok (((lines.drop block.start_line_index).take
        (block.end_line_index + 1 - block.start_line_index)).any
      (includeLineHit (includeTargets snippets_dir)))

/-- A file whose `http` block opens and closes braces on the first line and
closes further braces before reopening them: the locator still returns a
block, whose interior depth profile refutes the claimed invariant. -/
def exLinesUnbalanced : List Str :=
  ["http \x7b \x7d\n".toList, "\x7d\n".toList, "\x7b\n".toList, "x\n".toList]

/-- A well-formed file with an include directive inside the block. -/
def exLinesSimple : List Str :=
  ["http \x7b\n".toList, "    include conf.d/*.conf;\n".toList, "\x7d\n".toList]

/-- A file whose only matching include directive sits before the block. -/
def exLinesOutside : List Str :=
  ["include conf.d/*.conf;\n".toList, "http \x7b\n".toList, "\x7d\n".toList]

/-- The snippets directory used by the concrete examples. -/
def exSnippets : Str := "/etc/nginx/conf.d".toList

/-- A line carrying two directives: text after the terminating `;`. -/
def exLineDouble : Str := "include a; include b;".toList

lemma length_lt_of_drop_eq_cons {lines : List Str} {i : Nat} {raw : Str} {rest : List Str}
    (h : lines.drop i = raw :: rest) : i < lines.length := by
  by_contra hle
  rw [List.drop_eq_nil_iff.mpr (by omega)] at h
  cases h

lemma getD_of_drop_eq_cons {lines : List Str} {i : Nat} {raw : Str} {rest : List Str}
    (h : lines.drop i = raw :: rest) : lines.getD i [] = raw := by
  have h1 := List.getElem?_drop lines i 0
  rw [h] at h1
  simp only [List.getElem?_cons_zero, Nat.add_zero] at h1
  simp [List.getD_eq_getElem?_getD, ← h1]

lemma drop_succ_of_drop_eq_cons {lines : List Str} {i : Nat} {raw : Str} {rest : List Str}
    (h : lines.drop i = raw :: rest) : lines.drop (i + 1) = rest := by
  have h1 : (lines.drop i).drop 1 = rest := by rw [h]; rfl
  rwa [List.drop_drop] at h1

lemma head?_of_leadsWith {p s : Str} (hp : p ≠ []) (h : leadsWith p s = true) :
    s.head? = p.head? := by
  cases p with
  | nil => exact absurd rfl hp
  | cons a as =>
    cases s with
    | nil => simp [leadsWith] at h
    | cons b bs =>
      simp only [leadsWith, Bool.and_eq_true, decide_eq_true_eq] at h
      simp [h.1]

lemma not_httpOpen_and_alone (l : Str) :
    ¬(matchesHttpOpen l = true ∧ matchesHttpAlone l = true) := by
  rintro ⟨ho, ha⟩
  simp only [matchesHttpOpen, matchesHttpAlone, Bool.and_eq_true, decide_eq_true_eq] at ho ha
  have hnil : lstripWs ((lstripWs l).drop httpWord.length) = [] := by
    unfold lstripWs
    rw [List.dropWhile_eq_nil_iff]
    intro x hx
    exact List.all_eq_true.mp ha.2 x hx
  rw [hnil] at ho
  simp at ho

lemma not_alone_and_brace (l : Str) :
    ¬(matchesHttpAlone l = true ∧ matchesBraceOpen l = true) := by
  rintro ⟨ha, hb⟩
  simp only [matchesHttpAlone, matchesBraceOpen, Bool.and_eq_true, decide_eq_true_eq] at ha hb
  have hh : (lstripWs l).head? = httpWord.head? :=
    head?_of_leadsWith (by decide) ha.1
  rw [hb] at hh
  exact absurd hh.symm (by decide)

lemma segDepth_zero (lines : List Str) (o : Nat) : segDepth lines o 0 = 0 := rfl

lemma segDepth_succ_of_le {lines : List Str} {o i : Nat} (h : o ≤ i) :
    segDepth lines o (i + 1 - o) =
      segDepth lines o (i - o) + braceDelta (_strip_comments (lines.getD i [])) := by
  have h1 : i + 1 - o = (i - o) + 1 := by omega
  rw [h1, segDepth, Nat.add_sub_cancel' h]

lemma findEndAux_sound (lines : List Str) (o : Nat) :
    ∀ (s : List Str) (i : Nat) (d : Int), lines.drop i = s → o ≤ i →
      d = segDepth lines o (i - o) →
      (∀ e, findEndAux s o i d = some e →
          i ≤ e ∧ e < lines.length ∧ o < e ∧ segDepth lines o (e + 1 - o) = 0 ∧
          ∀ j, i ≤ j → j < e → o < j → segDepth lines o (j + 1 - o) ≠ 0) ∧
      (findEndAux s o i d = none →
          ∀ j, i ≤ j → j < lines.length → o < j → segDepth lines o (j + 1 - o) ≠ 0) := by
  intro s
  induction s with
  | nil =>
    intro i d hdrop _ _
    constructor
    · intro e he
      simp [findEndAux] at he
    · intro _ j hij hjlen _
      have : lines.length ≤ i := List.drop_eq_nil_iff.mp hdrop
      omega
  | cons raw rest ih =>
    intro i d hdrop hoi hd
    have hlen : i < lines.length := length_lt_of_drop_eq_cons hdrop
    have hraw : lines.getD i [] = raw := getD_of_drop_eq_cons hdrop
    have hrest : lines.drop (i + 1) = rest := drop_succ_of_drop_eq_cons hdrop
    have hstep : d + braceDelta (_strip_comments raw) = segDepth lines o (i + 1 - o) := by
      rw [segDepth_succ_of_le hoi, hd, hraw]
    by_cases hcond : d + braceDelta (_strip_comments raw) = 0 ∧ o < i
    · constructor
      · intro e he
        simp only [findEndAux, if_pos hcond, Option.some.injEq] at he
        subst he
        exact ⟨le_refl i, hlen, hcond.2, by rw [← hstep]; exact hcond.1,
               fun j h1 h2 _ => absurd (lt_of_le_of_lt h1 h2) (lt_irrefl i)⟩
      · intro he
        simp [findEndAux, if_pos hcond] at he
    · have hiter := ih (i + 1) (d + braceDelta (_strip_comments raw)) hrest (by omega) hstep
      have hunf : findEndAux (raw :: rest) o i d =
          findEndAux rest o (i + 1) (d + braceDelta (_strip_comments raw)) := by
        simp only [findEndAux, if_neg hcond]
      constructor
      · intro e he
        rw [hunf] at he
        obtain ⟨h1, h2, h3, h4, h5⟩ := hiter.1 e he
        refine ⟨by omega, h2, h3, h4, ?_⟩
        intro j hj1 hj2 hj3
        rcases Nat.eq_or_lt_of_le hj1 with hji | hji
        · subst hji
          rw [← hstep]
          intro hzero
          exact hcond ⟨hzero, hj3⟩
        · exact h5 j (by omega) hj2 hj3
      · intro he
        rw [hunf] at he
        intro j hj1 hj2 hj3
        rcases Nat.eq_or_lt_of_le hj1 with hji | hji
        · subst hji
          rw [← hstep]
          intro hzero
          exact hcond ⟨hzero, hj3⟩
        · exact hiter.2 he j (by omega) hj2 hj3

lemma findOpenAux_sound (lines : List Str) :
    ∀ (s : List Str) (i : Nat), lines.drop i = s →
      (∀ o, findOpenAux s i = some o →
          ∃ k, i ≤ k ∧ triggersAt lines k ∧ o = triggerResult lines k ∧
            ∀ m, i ≤ m → m < k → ¬ triggersAt lines m) ∧
      (findOpenAux s i = none → ∀ k, i ≤ k → ¬ triggersAt lines k) := by
  intro s
  induction s with
  | nil =>
    intro i hdrop
    constructor
    · intro o ho
      simp [findOpenAux] at ho
    · intro _ k hik htrig
      have hlen := htrig.1
      have : lines.length ≤ i := List.drop_eq_nil_iff.mp hdrop
      omega
  | cons raw rest ih =>
    intro i hdrop
    have hlen : i < lines.length := length_lt_of_drop_eq_cons hdrop
    have hraw : lines.getD i [] = raw := getD_of_drop_eq_cons hdrop
    have hrest : lines.drop (i + 1) = rest := drop_succ_of_drop_eq_cons hdrop
    by_cases hopen : matchesHttpOpen (_strip_comments raw) = true
    · have hunf : findOpenAux (raw :: rest) i = some i := by
        simp only [findOpenAux, if_pos hopen]
      constructor
      · intro o ho
        rw [hunf, Option.some.injEq] at ho
        subst ho
        refine ⟨i, le_refl i, ⟨hlen, Or.inl (by rw [hraw]; exact hopen)⟩, ?_,
                fun m h1 h2 => absurd (lt_of_le_of_lt h1 h2) (lt_irrefl i)⟩
        unfold triggerResult
        rw [if_pos (by rw [hraw]; exact hopen)]
      · intro ho
        rw [hunf] at ho
        cases ho
    · cases rest with
      | nil =>
        have hunf : findOpenAux [raw] i = none := by
          simp only [findOpenAux, if_neg hopen]
        have hlen1 : lines.length ≤ i + 1 := List.drop_eq_nil_iff.mp hrest
        constructor
        · intro o ho
          rw [hunf] at ho
          cases ho
        · intro _ k hik htrig
          obtain ⟨hklen, hdisj⟩ := htrig
          have hki : k = i := by omega
          subst hki
          rcases hdisj with h1 | ⟨_, hk1, _⟩
          · rw [hraw] at h1
            exact hopen h1
          · omega
      | cons nxt rest2 =>
        have hnxt : lines.getD (i + 1) [] = nxt := getD_of_drop_eq_cons hrest
        have hlen1 : i + 1 < lines.length := length_lt_of_drop_eq_cons hrest
        by_cases htwo : matchesHttpAlone (_strip_comments raw) = true ∧
            matchesBraceOpen (_strip_comments nxt) = true
        · have hbool : (matchesHttpAlone (_strip_comments raw) &&
              matchesBraceOpen (_strip_comments nxt)) = true := by
            rw [Bool.and_eq_true]
            exact htwo
          have hunf : findOpenAux (raw :: nxt :: rest2) i = some (i + 1) := by
            simp only [findOpenAux, if_neg hopen, if_pos hbool]
          constructor
          · intro o ho
            rw [hunf, Option.some.injEq] at ho
            subst ho
            refine ⟨i, le_refl i,
                    ⟨hlen, Or.inr ⟨by rw [hraw]; exact htwo.1, hlen1,
                                   by rw [hnxt]; exact htwo.2⟩⟩, ?_,
                    fun m h1 h2 => absurd (lt_of_le_of_lt h1 h2) (lt_irrefl i)⟩
            unfold triggerResult
            rw [if_neg (by rw [hraw]; exact hopen)]
          · intro ho
            rw [hunf] at ho
            cases ho
        · have hbool : (matchesHttpAlone (_strip_comments raw) &&
              matchesBraceOpen (_strip_comments nxt)) ≠ true := by
            intro hc
            rw [Bool.and_eq_true] at hc
            exact htwo hc
          have hunf : findOpenAux (raw :: nxt :: rest2) i =
              findOpenAux (nxt :: rest2) (i + 1) := by
            simp only [findOpenAux, if_neg hopen, if_neg hbool]
          have hnotrig : ¬ triggersAt lines i := by
            rintro ⟨_, hdisj⟩
            rcases hdisj with h1 | ⟨halone, _, hbrace⟩
            · rw [hraw] at h1
              exact hopen h1
            · rw [hraw] at halone
              rw [hnxt] at hbrace
              exact htwo ⟨halone, hbrace⟩
          obtain ⟨ihsome, ihnone⟩ := ih (i + 1) hrest
          constructor
          · intro o ho
            rw [hunf] at ho
            obtain ⟨k, hk1, htrig, hres, hmin⟩ := ihsome o ho
            refine ⟨k, by omega, htrig, hres, ?_⟩
            intro m h1 h2
            rcases Nat.eq_or_lt_of_le h1 with hmi | hmi
            · subst hmi
              exact hnotrig
            · exact hmin m (by omega) h2
          · intro ho k hik
            rw [hunf] at ho
            rcases Nat.eq_or_lt_of_le hik with hki | hki
            · subst hki
              exact hnotrig
            · exact ihnone ho k (by omega)

lemma leastOpening_of_firstTrigger {lines : List Str} {k : Nat}
    (hk : triggersAt lines k) (hmin : ∀ m, m < k → ¬ triggersAt lines m) :
    leastOpeningAt lines (triggerResult lines k) := by
  obtain ⟨hklen, hdisj⟩ := hk
  by_cases hopen : matchesHttpOpen (_strip_comments (lines.getD k [])) = true
  · have hres : triggerResult lines k = k := by
      unfold triggerResult
      rw [if_pos hopen]
    rw [hres]
    refine ⟨⟨hklen, Or.inl hopen⟩, ?_⟩
    rintro o ho ⟨holen, hodisj⟩
    rcases hodisj with h1 | ⟨ho1, halone, hbrace⟩
    · exact hmin o ho ⟨holen, Or.inl h1⟩
    · refine hmin (o - 1) (by omega) ⟨by omega, Or.inr ⟨halone, by omega, ?_⟩⟩
      rw [(by omega : o - 1 + 1 = o)]
      exact hbrace
  · rcases hdisj with h1 | ⟨halone, hk1len, hbrace⟩
    · exact absurd h1 hopen
    · have hres : triggerResult lines k = k + 1 := by
        unfold triggerResult
        rw [if_neg hopen]
      rw [hres]
      refine ⟨⟨hk1len, Or.inr ⟨by omega, by simpa using halone, hbrace⟩⟩, ?_⟩
      rintro o ho ⟨holen, hodisj⟩
      have hok : o < k ∨ o = k := by omega
      rcases hok with holt | hoeq
      · rcases hodisj with h1 | ⟨ho1, halone2, hbrace2⟩
        · exact hmin o holt ⟨holen, Or.inl h1⟩
        · refine hmin (o - 1) (by omega) ⟨by omega, Or.inr ⟨halone2, by omega, ?_⟩⟩
          rw [(by omega : o - 1 + 1 = o)]
          exact hbrace2
      · subst hoeq
        rcases hodisj with h1 | ⟨ho1, halone2, hbrace2⟩
        · exact hopen h1
        · exact not_alone_and_brace _ ⟨halone, hbrace2⟩

lemma no_opening_of_no_trigger {lines : List Str} (h : ∀ k, ¬ triggersAt lines k) :
    ∀ o, ¬ isOpeningAt lines o := by
  rintro o ⟨holen, hodisj⟩
  rcases hodisj with h1 | ⟨ho1, halone, hbrace⟩
  · exact h o ⟨holen, Or.inl h1⟩
  · refine h (o - 1) ⟨by omega, Or.inr ⟨halone, by omega, ?_⟩⟩
    rw [(by omega : o - 1 + 1 = o)]
    exact hbrace

lemma find_open_none {lines : List Str} (h : findOpenAux lines 0 = none) :
    find_http_block lines = none := by
  unfold find_http_block
  rw [h]

lemma find_open_some {lines : List Str} {o : Nat} (h : findOpenAux lines 0 = some o) :
    find_http_block lines =
      (match findEndAux (lines.drop o) o o 0 with
       | none => none
       | some e => some (⟨o, e⟩ : HttpBlock)) := by
  unfold find_http_block
  rw [h]

lemma find_end_none {lines : List Str} {o : Nat} (ho : findOpenAux lines 0 = some o)
    (he : findEndAux (lines.drop o) o o 0 = none) : find_http_block lines = none := by
  rw [find_open_some ho, he]

lemma find_end_some {lines : List Str} {o e : Nat} (ho : findOpenAux lines 0 = some o)
    (he : findEndAux (lines.drop o) o o 0 = some e) :
    find_http_block lines = some ⟨o, e⟩ := by
  rw [find_open_some ho, he]

lemma find_http_block_some {lines : List Str} {b : HttpBlock}
    (h : find_http_block lines = some b) :
    leastOpeningAt lines b.start_line_index ∧
    b.start_line_index < b.end_line_index ∧ b.end_line_index < lines.length ∧
    segDepth lines b.start_line_index (b.end_line_index + 1 - b.start_line_index) = 0 ∧
    ∀ j, b.start_line_index < j → j < b.end_line_index →
      segDepth lines b.start_line_index (j + 1 - b.start_line_index) ≠ 0 := by
  cases ho : findOpenAux lines 0 with
  | none =>
    rw [find_open_none ho] at h
    cases h
  | some o =>
    cases he : findEndAux (lines.drop o) o o 0 with
    | none =>
      rw [find_end_none ho he] at h
      cases h
    | some e =>
      rw [find_end_some ho he, Option.some.injEq] at h
      subst h
      obtain ⟨k, _, htrig, hres, hmin⟩ := ((findOpenAux_sound lines lines 0
        (List.drop_zero lines)).1) o ho
      have hleast : leastOpeningAt lines o := by
        rw [hres]
        exact leastOpening_of_firstTrigger htrig (fun m hm => hmin m (Nat.zero_le m) hm)
      obtain ⟨h1, h2, h3, h4, h5⟩ := ((findEndAux_sound lines o (lines.drop o) o 0 rfl
        (le_refl o) (by rw [Nat.sub_self]; rfl)).1) e he
      exact ⟨hleast, h3, h2, h4, fun j hj1 hj2 => h5 j (le_of_lt hj1) hj2 hj1⟩

lemma find_http_block_none {lines : List Str} (h : find_http_block lines = none) :
    (∀ o, ¬ isOpeningAt lines o) ∨
    (∃ s, leastOpeningAt lines s ∧
       ∀ e, s < e → e < lines.length → segDepth lines s (e + 1 - s) ≠ 0) := by
  cases ho : findOpenAux lines 0 with
  | none =>
    left
    exact no_opening_of_no_trigger
      (fun k => ((findOpenAux_sound lines lines 0 (List.drop_zero lines)).2) ho k
        (Nat.zero_le k))
  | some o =>
    right
    obtain ⟨k, _, htrig, hres, hmin⟩ := ((findOpenAux_sound lines lines 0
      (List.drop_zero lines)).1) o ho
    have hleast : leastOpeningAt lines o := by
      rw [hres]
      exact leastOpening_of_firstTrigger htrig (fun m hm => hmin m (Nat.zero_le m) hm)
    cases he : findEndAux (lines.drop o) o o 0 with
    | none =>
      refine ⟨o, hleast, ?_⟩
      intro e he1 he2
      exact ((findEndAux_sound lines o (lines.drop o) o 0 rfl (le_refl o)
        (by rw [Nat.sub_self]; rfl)).2) he e (by omega) he2 he1
    | some e =>
      rw [find_end_some ho he] at h
      cases h

lemma getD_eq_of_lt {lines : List Str} {i : Nat} (h : i < lines.length) :
    lines.getD i [] = lines[i] := by
  rw [List.getD_eq_getElem?_getD, List.getElem?_eq_getElem h]
  rfl

lemma any_slice {lines : List Str} {f : Str → Bool} {s cnt : Nat}
    (hbound : s + cnt ≤ lines.length) :
    ((lines.drop s).take cnt).any f = true ↔
      ∃ i, s ≤ i ∧ i < s + cnt ∧ f (lines.getD i []) = true := by
  rw [List.any_eq_true]
  constructor
  · rintro ⟨x, hx, hfx⟩
    obtain ⟨k, hk⟩ := List.mem_iff_getElem?.mp hx
    rw [List.getElem?_take] at hk
    by_cases hkc : k < cnt
    · rw [if_pos hkc, List.getElem?_drop] at hk
      refine ⟨s + k, by omega, by omega, ?_⟩
      rw [List.getD_eq_getElem?_getD, hk]
      exact hfx
    · rw [if_neg hkc] at hk
      cases hk
  · rintro ⟨i, h1, h2, hf⟩
    have hilen : i < lines.length := by omega
    refine ⟨lines.getD i [], ?_, hf⟩
    apply List.mem_iff_getElem?.mpr
    refine ⟨i - s, ?_⟩
    rw [List.getElem?_take, if_pos (by omega : i - s < cnt), List.getElem?_drop,
        (by omega : s + (i - s) = i), List.getElem?_eq_getElem hilen, getD_eq_of_lt hilen]

lemma targets_ne_nil {sd : Str} : ∀ t ∈ includeTargets sd, t ≠ [] := by
  intro t ht
  unfold includeTargets at ht
  rcases List.mem_cons.mp ht with h | h
  · subst h
    simp [confGlob]
  · rcases List.mem_cons.mp h with h2 | h2
    · subst h2
      simp [confGlob]
    · cases h2

lemma includeLineHit_iff {sd : Str} {raw : Str} :
    includeLineHit (includeTargets sd) raw = true ↔
      ∃ p, _parse_include_path raw = some p ∧ p ∈ includeTargets sd := by
  unfold includeLineHit
  cases hp : _parse_include_path raw with
  | none =>
    constructor
    · intro h
      cases h
    · rintro ⟨p, hpq, -⟩
      cases hpq
  | some p =>
    constructor
    · intro hhit
      rw [Bool.and_eq_true, decide_eq_true_eq] at hhit
      exact ⟨p, rfl, hhit.2⟩
    · rintro ⟨q, hq, hmem⟩
      rw [Option.some.injEq] at hq
      subst hq
      rw [Bool.and_eq_true, decide_eq_true_eq]
      refine ⟨?_, hmem⟩
      have hne : p ≠ [] := targets_ne_nil p hmem
      cases p with
      | nil => exact absurd rfl hne
      | cons c cs => rfl

lemma nginx_none_false {lines : List Str} {sd : Str} (h : find_http_block lines = none) :
    nginx_conf_includes_snippets lines sd = false := by
  unfold nginx_conf_includes_snippets
  rw [h]

lemma nginx_true_iff {lines : List Str} {sd : Str} {b : HttpBlock}
    (hb : find_http_block lines = some b) :
    nginx_conf_includes_snippets lines sd = true ↔
      ∃ i, b.start_line_index ≤ i ∧ i ≤ b.end_line_index ∧ lineMatchesTargets lines sd i := by
  obtain ⟨-, hlt, hlen, -, -⟩ := find_http_block_some hb
  have hbound : b.start_line_index +
      (b.end_line_index + 1 - b.start_line_index) ≤ lines.length := by omega
  unfold nginx_conf_includes_snippets
  rw [hb]
  show ((lines.drop b.start_line_index).take
      (b.end_line_index + 1 - b.start_line_index)).any
    (includeLineHit (includeTargets sd)) = true ↔ _
  rw [any_slice hbound]
  constructor
  · rintro ⟨i, h1, h2, hf⟩
    exact ⟨i, h1, by omega, includeLineHit_iff.mp hf⟩
  · rintro ⟨i, h1, h2, hm⟩
    exact ⟨i, h1, by omega, includeLineHit_iff.mpr hm⟩

lemma strip_comments_no_hash {a : Str} (ha : hashChar ∉ a) : _strip_comments a = a := by
  unfold _strip_comments
  induction a with
  | nil => rfl
  | cons c cs ih =>
    have hc : ¬(c = hashChar) := fun h => ha (by rw [h]; exact List.mem_cons_self _ _)
    have hcs : hashChar ∉ cs := fun h => ha (List.mem_cons_of_mem c h)
    rw [List.takeWhile_cons, if_pos (by simpa using hc), ih hcs]

lemma strip_comments_append_hash {a b : Str} (ha : hashChar ∉ a) :
    _strip_comments (a ++ hashChar :: b) = a := by
  unfold _strip_comments
  induction a with
  | nil => simp [List.takeWhile_cons]
  | cons c cs ih =>
    have hc : ¬(c = hashChar) := fun h => ha (by rw [h]; exact List.mem_cons_self _ _)
    have hcs : hashChar ∉ cs := fun h => ha (List.mem_cons_of_mem c h)
    rw [List.cons_append, List.takeWhile_cons, if_pos (by simpa using hc), ih hcs]

lemma leadsWith_iff_take {p : Str} : ∀ {s : Str}, leadsWith p s = true ↔ s.take p.length = p := by
  induction p with
  | nil =>
    intro s
    simp [leadsWith]
  | cons a as ih =>
    intro s
    cases s with
    | nil => simp [leadsWith]
    | cons b bs =>
      simp only [leadsWith, Bool.and_eq_true, decide_eq_true_eq, List.length_cons,
                 List.take_succ_cons, List.cons.injEq]
      rw [ih]
      constructor
      · rintro ⟨h1, h2⟩
        exact ⟨h1.symm, h2⟩
      · rintro ⟨h1, h2⟩
        exact ⟨h1.symm, h2⟩

lemma removeLeading_eq_spec (x : Str) : removeLeading etcNginxDir x = specRemoveEtcNginx x := by
  unfold removeLeading specRemoveEtcNginx
  by_cases h : leadsWith etcNginxDir x = true
  · rw [if_pos h, if_pos (leadsWith_iff_take.mp h)]
  · rw [if_neg h, if_neg (fun hc => h (leadsWith_iff_take.mpr hc))]

lemma rstripSlash_dropLast {s : Str} (h : s.getLast? = some slashChar) :
    rstripSlash s = rstripSlash s.dropLast := by
  have hne : s ≠ [] := by
    intro he
    rw [he] at h
    cases h
  have hlast : s.getLast hne = slashChar := by
    have h2 := List.getLast?_eq_getLast s hne
    rw [h2, Option.some.injEq] at h
    exact h
  conv_lhs => rw [← List.dropLast_append_getLast hne]
  unfold rstripSlash
  rw [List.reverse_append, hlast]
  simp [List.dropWhile_cons]

lemma rstripSlash_eq_self {s : Str} (h : ¬ s.getLast? = some slashChar) :
    rstripSlash s = s := by
  unfold rstripSlash
  cases hrev : s.reverse with
  | nil =>
    have : s = [] := by
      have h2 := congrArg List.reverse hrev
      rwa [List.reverse_reverse] at h2
    simp [this]
  | cons a as =>
    have hga : s.getLast? = some a := by
      rw [← List.head?_reverse, hrev]
      rfl
    have ha : ¬(a = slashChar) := fun hc => h (by rw [hga, hc])
    rw [List.dropWhile_cons, if_neg (by simpa using ha), ← hrev, List.reverse_reverse]

lemma rstripSlash_eq_spec (s : Str) : rstripSlash s = specStripTrailingSlash s := by
  have main : ∀ n (t : Str), t.length ≤ n → rstripSlash t = specStripTrailingSlash t := by
    intro n
    induction n with
    | zero =>
      intro t ht
      have hnil : t = [] := by
        cases t with
        | nil => rfl
        | cons a as => simp at ht
      subst hnil
      rw [specStripTrailingSlash, dif_neg (by simp)]
      rfl
    | succ n ih =>
      intro t ht
      by_cases hl : t.getLast? = some slashChar
      · rw [rstripSlash_dropLast hl, specStripTrailingSlash, dif_pos hl]
        apply ih
        have hne : t ≠ [] := by
          intro he
          rw [he] at hl
          cases hl
        have := List.length_pos.mpr hne
        rw [List.length_dropLast]
        omega
      · rw [rstripSlash_eq_self hl, specStripTrailingSlash, dif_neg hl]
  exact main s.length s (le_refl _)

lemma getLineChecked_ok {lines : List Str} {i : Nat} (h : i < lines.length) :
    getLineChecked lines i = Except.ok lines[i] := by
  unfold getLineChecked
  rw [List.getElem?_eq_getElem h]

lemma findEndChecked_eq (lines : List Str) (o : Nat) :
    ∀ (i : Nat) (d : Int),
      findEndChecked lines o i d = Except.ok (findEndAux (lines.drop i) o i d) := by
  have main : ∀ n (i : Nat) (d : Int), lines.length - i ≤ n →
      findEndChecked lines o i d = Except.ok (findEndAux (lines.drop i) o i d) := by
    intro n
    induction n with
    | zero =>
      intro i d hni
      have hge : lines.length ≤ i := by omega
      rw [findEndChecked, dif_neg (by omega), List.drop_eq_nil_iff.mpr hge]
      rfl
    | succ n ihn =>
      intro i d hni
      by_cases hlen : i < lines.length
      · have hdrop : lines.drop i = lines[i] :: lines.drop (i + 1) :=
          List.drop_eq_getElem_cons hlen
        rw [findEndChecked, dif_pos hlen, getLineChecked_ok hlen, hdrop]
        by_cases hcond : d + braceDelta (_strip_comments lines[i]) = 0 ∧ o < i
        · simp only [findEndAux, if_pos hcond]
        · simp only [findEndAux, if_neg hcond]
          exact ihn (i + 1) _ (by omega)
      · have hge : lines.length ≤ i := by omega
        rw [findEndChecked, dif_neg (by omega), List.drop_eq_nil_iff.mpr hge]
        rfl
  intro i d
  exact main (lines.length - i) i d (le_refl _)

lemma findOpenChecked_eq (lines : List Str) :
    ∀ i : Nat, findOpenChecked lines i = Except.ok (findOpenAux (lines.drop i) i) := by
  have main : ∀ n (i : Nat), lines.length - i ≤ n →
      findOpenChecked lines i = Except.ok (findOpenAux (lines.drop i) i) := by
    intro n
    induction n with
    | zero =>
      intro i hni
      have hge : lines.length ≤ i := by omega
      rw [findOpenChecked, dif_neg (by omega), List.drop_eq_nil_iff.mpr hge]
      rfl
    | succ n ihn =>
      intro i hni
      by_cases hlen : i < lines.length
      · have hdrop : lines.drop i = lines[i] :: lines.drop (i + 1) :=
          List.drop_eq_getElem_cons hlen
        rw [findOpenChecked, dif_pos hlen, getLineChecked_ok hlen, hdrop]
        dsimp only
        by_cases hopen : matchesHttpOpen (_strip_comments lines[i]) = true
        · simp only [findOpenAux, if_pos hopen]
        · by_cases h1len : i + 1 < lines.length
          · have hdrop2 : lines.drop (i + 1) = lines[i + 1] :: lines.drop (i + 2) :=
              List.drop_eq_getElem_cons h1len
            rw [hdrop2]
            by_cases halone : matchesHttpAlone (_strip_comments lines[i]) = true
            · rw [if_neg hopen, if_pos ⟨halone, h1len⟩, getLineChecked_ok h1len]
              dsimp only
              by_cases hbrace : matchesBraceOpen (_strip_comments lines[i + 1]) = true
              · have hbool : (matchesHttpAlone (_strip_comments lines[i]) &&
                    matchesBraceOpen (_strip_comments lines[i + 1])) = true := by
                  rw [Bool.and_eq_true]
                  exact ⟨halone, hbrace⟩
                simp only [findOpenAux, if_neg hopen, if_pos hbool, if_pos hbrace]
              · have hbool : (matchesHttpAlone (_strip_comments lines[i]) &&
                    matchesBraceOpen (_strip_comments lines[i + 1])) ≠ true := by
                  intro hc
                  rw [Bool.and_eq_true] at hc
                  exact hbrace hc.2
                rw [if_neg hbrace]
                simp only [findOpenAux, if_neg hopen, if_neg hbool]
                rw [ihn (i + 1) (by omega), hdrop2]
                simp only [findOpenAux]
            · have hcond : ¬(matchesHttpAlone (_strip_comments lines[i]) = true ∧
                  i + 1 < lines.length) := fun hc => halone hc.1
              have hbool : (matchesHttpAlone (_strip_comments lines[i]) &&
                  matchesBraceOpen (_strip_comments lines[i + 1])) ≠ true := by
                intro hc
                rw [Bool.and_eq_true] at hc
                exact halone hc.1
              rw [if_neg hopen, if_neg hcond]
              simp only [findOpenAux, if_neg hopen, if_neg hbool]
              rw [ihn (i + 1) (by omega), hdrop2]
              simp only [findOpenAux]
          · have hnil : lines.drop (i + 1) = [] :=
              List.drop_eq_nil_iff.mpr (by omega)
            rw [hnil]
            have hcond : ¬(matchesHttpAlone (_strip_comments lines[i]) = true ∧
                i + 1 < lines.length) := fun hc => h1len hc.2
            rw [if_neg hopen, if_neg hcond, ihn (i + 1) (by omega), hnil]
            simp only [findOpenAux, if_neg hopen]
      · have hge : lines.length ≤ i := by omega
        rw [findOpenChecked, dif_neg (by omega), List.drop_eq_nil_iff.mpr hge]
        rfl
  intro i
  exact main (lines.length - i) i (le_refl _)

lemma find_http_block_checked_eq (lines : List Str) :
    find_http_block_checked lines = Except.ok (find_http_block lines) := by
  unfold find_http_block_checked find_http_block
  rw [findOpenChecked_eq lines 0, List.drop_zero]
  cases findOpenAux lines 0 with
  | none => rfl
  | some o =>
    dsimp only
    rw [findEndChecked_eq lines o o 0]
    cases findEndAux (lines.drop o) o o 0 <;> rfl

/-- Claim C1: for every list of input lines, the block locator scans
top-to-bottom and selects as the opening line the topmost line opening an
`http` block in either surface syntax (for the two-line form the opening line
is the line holding the `{`, per the data model); it accumulates brace depth
from the opening line onward and returns the inclusive span ending at the
first line strictly after the opening line where the accumulated depth is
exactly 0; when no opening line exists, or the depth never returns to 0
before the input ends, it returns `none` rather than raising an error. -/
theorem find_http_block_correct (lines : List Str) :
    (∀ b : HttpBlock, find_http_block lines = some b →
        leastOpeningAt lines b.start_line_index ∧
        b.start_line_index < b.end_line_index ∧ b.end_line_index < lines.length ∧
        segDepth lines b.start_line_index (b.end_line_index + 1 - b.start_line_index) = 0 ∧
        ∀ j, b.start_line_index < j → j < b.end_line_index →
          segDepth lines b.start_line_index (j + 1 - b.start_line_index) ≠ 0) ∧
    (find_http_block lines = none →
        (∀ o, ¬ isOpeningAt lines o) ∨
        ∃ s, leastOpeningAt lines s ∧
          ∀ e, s < e → e < lines.length → segDepth lines s (e + 1 - s) ≠ 0) :=
  ⟨fun _ h => find_http_block_some h, fun h => find_http_block_none h⟩

/-- Claim C2: the inclusion check returns `true` exactly when the block is
located and some line within the block span (both endpoints included) parses
as an include directive whose extracted path is one of the two acceptance
targets; when the block is not found or no line of the span matches, the
result is `false`.  (The code additionally discards an empty extracted path
as falsy, which cannot change the outcome: every target ends in `/*.conf`
and so is nonempty.) -/
theorem nginx_conf_includes_snippets_correct (lines : List Str) (sd : Str) :
    nginx_conf_includes_snippets lines sd = true ↔
      ∃ b : HttpBlock, find_http_block lines = some b ∧
        ∃ i, b.start_line_index ≤ i ∧ i ≤ b.end_line_index ∧
          ∃ p, _parse_include_path (lines.getD i []) = some p ∧ p ∈ includeTargets sd := by
  cases hb : find_http_block lines with
  | none =>
    constructor
    · intro h
      rw [nginx_none_false hb] at h
      cases h
    · rintro ⟨b, hbb, -⟩
      cases hbb
  | some b =>
    rw [nginx_true_iff hb]
    constructor
    · rintro ⟨i, h1, h2, hm⟩
      exact ⟨b, rfl, i, h1, h2, hm⟩
    · rintro ⟨b2, hb2, i, h1, h2, hm⟩
      rw [Option.some.injEq] at hb2
      subst hb2
      exact ⟨i, h1, h2, hm⟩

/-- Claim C3, counterexample: on a file whose opening line already closes its
brace (`http { }`), the locator still returns a block — here the span from
line 0 to line 2 — but the accumulated depth is 0 at the start line itself
and negative in the interior, refuting the claimed invariant that the depth
is strictly positive at every line from the start through `end - 1`. -/
theorem http_block_claimed_invariant_refuted :
    find_http_block exLinesUnbalanced = some ⟨0, 2⟩ ∧
    ¬ claimedBlockInvariant exLinesUnbalanced ⟨0, 2⟩ :=
  ⟨by decide, fun hc => absurd (hc.2.2 0 (le_refl 0) (by decide)) (by decide)⟩

/-- Claim C3 (amended): every block returned by the locator satisfies: start
index at most (indeed strictly below) end index; accumulated brace depth
across the comment-stripped lines from start through end exactly 0 at the end
line; and accumulated depth nonzero at every line strictly between the start
line and the end line.  (The depth at the start line itself may already be 0,
and intermediate depths may be negative: the stated claim's stronger
start-inclusive, strictly-positive profile is refuted by the
counterexample.) -/
theorem http_block_invariant {lines : List Str} {b : HttpBlock}
    (h : find_http_block lines = some b) :
    b.start_line_index ≤ b.end_line_index ∧
    segDepth lines b.start_line_index (b.end_line_index + 1 - b.start_line_index) = 0 ∧
    ∀ i, b.start_line_index < i → i < b.end_line_index →
      segDepth lines b.start_line_index (i + 1 - b.start_line_index) ≠ 0 := by
  obtain ⟨-, h2, -, h4, h5⟩ := find_http_block_some h
  exact ⟨le_of_lt h2, h4, h5⟩

/-- Claim C3, witness: the amended invariant holds for the block located in a
small well-formed file. -/
theorem http_block_invariant_witness :
    find_http_block exLinesSimple = some ⟨0, 2⟩ ∧
    ((0 : Nat) ≤ 2 ∧ segDepth exLinesSimple 0 3 = 0 ∧
     ∀ i, 0 < i → i < 2 → segDepth exLinesSimple 0 (i + 1 - 0) ≠ 0) :=
  ⟨by decide, @http_block_invariant exLinesSimple ⟨0, 2⟩ (by decide)⟩

/-- Claim C4: when a matching include directive occurs only outside the
located block span (lexically before the opening line or after the closing
line) and no line inside the span matches, the result is `false`: include
directives are honored only within the block span. -/
theorem include_outside_block_ignored {lines : List Str} {sd : Str} {b : HttpBlock}
    (hb : find_http_block lines = some b)
    (_hout : ∃ j, j < lines.length ∧
        (j < b.start_line_index ∨ b.end_line_index < j) ∧ lineMatchesTargets lines sd j)
    (hin : ∀ i, b.start_line_index ≤ i → i ≤ b.end_line_index →
        ¬ lineMatchesTargets lines sd i) :
    nginx_conf_includes_snippets lines sd = false := by
  rw [← Bool.not_eq_true]
  intro h
  obtain ⟨i, h1, h2, hm⟩ := (nginx_true_iff hb).mp h
  exact hin i h1 h2 hm

/-- Claim C4, witness: a file whose only matching include directive precedes
the `http` block yields `false`. -/
theorem include_outside_block_ignored_witness :
    find_http_block exLinesOutside = some ⟨1, 2⟩ ∧
    nginx_conf_includes_snippets exLinesOutside exSnippets = false := by
  have hb : find_http_block exLinesOutside = some ⟨1, 2⟩ := by decide
  refine ⟨hb, include_outside_block_ignored hb ?_ ?_⟩
  · exact ⟨0, by decide, by decide, ⟨"conf.d/*.conf".toList, by decide, by decide⟩⟩
  · intro i hi1 hi2
    rintro ⟨p, hp, -⟩
    have ha : 1 ≤ i := hi1
    have hb2 : i ≤ 2 := hi2
    have hi : i = 1 ∨ i = 2 := by omega
    rcases hi with h | h <;> subst h
    · have hnone : _parse_include_path (exLinesOutside.getD 1 []) = none := by decide
      rw [hnone] at hp
      cases hp
    · have hnone : _parse_include_path (exLinesOutside.getD 2 []) = none := by decide
      rw [hnone] at hp
      cases hp

/-- Claim C5: for every snippets directory, the acceptance set consists of
exactly the two derived strings — the directory with trailing slashes
removed plus `/*.conf`, and the same with a literal leading `/etc/nginx/`
first removed from the slash-stripped directory when present — and an
extracted include path matches exactly when it equals one of the two.  The
right-hand side restates both derivations with spec-side definitions
(`specStripTrailingSlash`, `specRemoveEtcNginx`) that are syntactically
independent of the code-side `rstripSlash` and `removeLeading`. -/
theorem include_targets_exactly_two (sd p : Str) :
    p ∈ includeTargets sd ↔
      p = specStripTrailingSlash sd ++ confGlob ∨
      p = specRemoveEtcNginx (specStripTrailingSlash sd) ++ confGlob := by
  rw [← rstripSlash_eq_spec, ← removeLeading_eq_spec]
  unfold includeTargets
  rw [List.mem_cons, List.mem_cons]
  simp

/-- Claim C6: the inclusion check is total on every input line list: a
variant of the whole pipeline in which every list access of the block
locator is explicitly fallible never reaches the error case, and always
returns exactly the boolean of the plain function — malformed or
brace-unbalanced content degrades to `false` rather than failing. -/
theorem nginx_conf_includes_snippets_total (lines : List Str) (sd : Str) :
    nginx_conf_includes_snippets_checked lines sd =
      Except.ok (nginx_conf_includes_snippets lines sd) := by
  unfold nginx_conf_includes_snippets_checked nginx_conf_includes_snippets
  rw [find_http_block_checked_eq]
  cases find_http_block lines <;> rfl

/-- Claim C7: the comment stripper returns exactly the portion of the line
before its first `#`, leaving that portion (whitespace, quotes and all)
unchanged, and returns a line without `#` unchanged; it is not quote-aware,
as the decomposition `a ++ hash :: b` places no restriction on quote
characters inside `a` or `b`. -/
theorem strip_comments_before_first_hash (a b : Str) (ha : hashChar ∉ a) :
    _strip_comments (a ++ hashChar :: b) = a ∧ _strip_comments a = a :=
  ⟨strip_comments_append_hash ha, strip_comments_no_hash ha⟩

/-- Claim C7, witness: a quoted `#` still starts a comment — the prefix kept
here ends inside an open double quote. -/
theorem strip_comments_before_first_hash_witness :
    hashChar ∉ "ab \x22q".toList ∧
    (_strip_comments ("ab \x22q".toList ++ hashChar :: " tail\x22".toList) = "ab \x22q".toList ∧
     _strip_comments "ab \x22q".toList = "ab \x22q".toList) :=
  ⟨by decide, strip_comments_before_first_hash _ _ (by decide)⟩

/-- Claim C8: the CLI command exits 0 exactly when the file exists and the
inclusion result is true, 1 exactly when the file exists and the result is
false, and 2 exactly when the configuration file does not exist; with the
verbose flag set (and the file present) it writes the single token `yes` or
`no` to standard output according to the result, and writes nothing to
standard output otherwise. -/
theorem cmd_includes_snippets_exit_codes (confExists verbose : Bool)
    (lines : List Str) (sd : Str) :
    ((_cmd_includes_snippets confExists lines sd verbose).exitCode = 0 ↔
        confExists = true ∧ nginx_conf_includes_snippets lines sd = true) ∧
    ((_cmd_includes_snippets confExists lines sd verbose).exitCode = 1 ↔
        confExists = true ∧ nginx_conf_includes_snippets lines sd = false) ∧
    ((_cmd_includes_snippets confExists lines sd verbose).exitCode = 2 ↔
        confExists = false) ∧
    (_cmd_includes_snippets confExists lines sd verbose).stdoutLines =
      (if confExists = true ∧ verbose = true then
        [if nginx_conf_includes_snippets lines sd then "yes".toList else "no".toList]
      else []) := by
  cases confExists <;> cases verbose <;>
    cases hok : nginx_conf_includes_snippets lines sd <;>
      simp [_cmd_includes_snippets, hok]

/-- Claim C9: a `#` anywhere before the include text makes the parser treat
the rest of the line as a comment: parsing `pre ++ hash :: post` is the same
as parsing `pre` alone, so a commented-out include directive in `post`
yields no path and can never contribute a match. -/
theorem commented_out_include_ignored (pre post : Str) (h : hashChar ∉ pre) :
    _parse_include_path (pre ++ hashChar :: post) = _parse_include_path pre := by
  unfold _parse_include_path cleanedLine
  rw [strip_comments_append_hash h, strip_comments_no_hash h]

/-- Claim C9, witness: a commented-out include line parses to nothing. -/
theorem commented_out_include_ignored_witness :
    hashChar ∉ "  ".toList ∧
    (_parse_include_path ("  ".toList ++ hashChar :: "include conf.d/*.conf;".toList) =
      _parse_include_path "  ".toList) ∧
    _parse_include_path "  ".toList = none :=
  ⟨by decide, commented_out_include_ignored _ _ (by decide), by decide⟩

/-- Claim C10: the include pattern is anchored to the whole line: when any
non-whitespace character follows the first `;` of the comment-stripped line
(for example a second directive), the parser returns no path — at most one
directive is recognized per line, and only when nothing but whitespace
follows its semicolon. -/
theorem include_with_trailing_text_rejected (line : Str)
    (h : ∃ c, c ∈ afterSemi (cleanedLine line) ∧ isPySpace c = false) :
    _parse_include_path line = none := by
  obtain ⟨c, hc, hcw⟩ := h
  have hall : (afterSemi (cleanedLine line)).all isPySpace = false := by
    cases hax : (afterSemi (cleanedLine line)).all isPySpace with
    | false => rfl
    | true =>
      rw [List.all_eq_true] at hax
      rw [hax c hc] at hcw
      cases hcw
  unfold _parse_include_path
  rw [hall, Bool.and_false]
  rfl

/-- Claim C10, witness: a line holding two include directives is rejected. -/
theorem include_with_trailing_text_rejected_witness :
    (∃ c, c ∈ afterSemi (cleanedLine exLineDouble) ∧ isPySpace c = false) ∧
    _parse_include_path exLineDouble = none := by
  have hx : ∃ c, c ∈ afterSemi (cleanedLine exLineDouble) ∧ isPySpace c = false := by
    refine ⟨Char.ofNat 105, ?_, ?_⟩ <;> decide
  exact ⟨hx, include_with_trailing_text_rejected _ hx⟩

